import Mathlib

/-!
Verification of the precision–recall evaluation engine
(`make_pr.py`, `plot_pr.py`, `gen_pathway_union.py`).

The Python source is shallowly embedded: pandas dataframes become lists of
rows, Python sets become `Finset`s, Python exceptions become an explicit
`PyError` value threaded through `Except`, and `np.NaN` (returned by
`precision` on an empty restricted set) becomes `Option.none`.
-/

/-- Python builtin exceptions that the embedded code can raise:
`ValueError` (raised by `random.sample` on an oversized request and by
`max` on an empty collection) and `ZeroDivisionError` (raised by `recall`
when the truth set is empty). -/
inductive PyError
  | valueError
  | zeroDivisionError
deriving DecidableEq

instance {α β : Type} [DecidableEq α] [DecidableEq β] : DecidableEq (Except α β) := fun x y =>
  match x, y with
  | .ok a, .ok b =>
    if h : a = b then .isTrue (h ▸ rfl) else .isFalse (fun hc => h (by injection hc))
  | .error a, .error b =>
    if h : a = b then .isTrue (h ▸ rfl) else .isFalse (fun hc => h (by injection hc))
  | .ok _, .error _ => .isFalse (fun hc => Except.noConfusion hc)
  | .error _, .ok _ => .isFalse (fun hc => Except.noConfusion hc)

/-- A two-column row (entity A, entity B), as produced by
`interactome.take([0,1],axis=1)`. -/
abbrev E2 := String × String

/-- A three-column row (tail, head, pathway label), the shape of
`df[['#tail','head','pathway_name']]` rows. -/
abbrev E3 := String × String × String

/-- One row of a ranked-prediction dataframe: columns
`#tail`, `head`, `pathway_name`, `rank` (after the `KSP index` → `rank`
renaming). -/
structure PRow where
  tail : String
  head : String
  pathway_name : String
  rank : ℚ
deriving DecidableEq

/-- `make_edges` (make_pr.py line 39): `{tuple(x) for x in df.values}` —
the set of row tuples of a dataframe. -/
def make_edges {α : Type} [DecidableEq α] (rows : List α) : Finset α :=
  rows.toFinset

/-- `get_k` (make_pr.py line 32): `df[df['rank'] <= k][['#tail','head','pathway_name']]` —
the rows of rank at most `k`, projected to the three edge columns. -/
def get_k (k : ℚ) (df : List PRow) : List E3 :=
  (df.filter (fun r => r.rank ≤ k)).map (fun r => (r.tail, r.head, r.pathway_name))

/-- The restriction step shared by `precision` and `recall`
(make_pr.py lines 58 and 67):
`prediction = {x for x in prediction if x in truth or x in negs}`. -/
def restrict (prediction truth negs : Finset E3) : Finset E3 :=
  prediction.filter (fun x => x ∈ truth ∨ x ∈ negs)

/-- `precision` (make_pr.py line 57): restrict the prediction to
truth ∪ negatives, then `len(prediction ∩ truth)/len(prediction)`;
the `except` branch returning `np.NaN` on an empty restricted set is
embedded as `none`. -/
def precision (prediction truth negs : Finset E3) : Option ℚ :=
  let p := restrict prediction truth negs
  if p.card = 0 then none
  else some (((p ∩ truth).card : ℚ) / p.card)

/-- `recall` (make_pr.py line 66): restrict the prediction to
truth ∪ negatives, then `len(prediction ∩ truth)/len(truth)`; unlike
`precision` there is no `try`, so an empty truth set raises
`ZeroDivisionError`. -/
def recall_code (prediction truth negs : Finset E3) : Except PyError ℚ :=
  if truth.card = 0 then .error .zeroDivisionError
  else .ok (((restrict prediction truth negs ∩ truth).card : ℚ) / truth.card)

/-- Spec-side precision, written from the spec's words: restrict the
prediction to truth ∪ negatives, then
`|restricted-prediction ∩ truth| / |restricted-prediction|`, undefined
when the restricted prediction set is empty. -/
def precision_spec (prediction truth negs : Finset E3) : Option ℚ :=
  let p := prediction ∩ (truth ∪ negs)
  if p = ∅ then none
  else some (((p ∩ truth).card : ℚ) / p.card)

/-- Spec-side recall, written from the spec's words:
`|restricted-prediction ∩ truth| / |truth|`, defined whenever truth is
non-empty. -/
def recall_spec (prediction truth negs : Finset E3) : Option ℚ :=
  let p := prediction ∩ (truth ∪ negs)
  if truth = ∅ then none
  else some (((p ∩ truth).card : ℚ) / truth.card)

lemma restrict_eq_inter (prediction truth negs : Finset E3) :
    restrict prediction truth negs = prediction ∩ (truth ∪ negs) := by
  ext x
  simp [restrict, Finset.mem_filter, Finset.mem_inter, Finset.mem_union]

/-- C1: the precision and recall computations first restrict the
prediction set to elements belonging to truth or negatives, and then
precision equals `|restricted ∩ truth| / |restricted|` and recall equals
`|restricted ∩ truth| / |truth|` (recall being defined whenever truth is
non-empty). -/
theorem c1_precision_recall_restricted (prediction truth negs : Finset E3) :
    precision prediction truth negs = precision_spec prediction truth negs ∧
    (truth ≠ ∅ →
      recall_code prediction truth negs =
        .ok (((prediction ∩ (truth ∪ negs) ∩ truth).card : ℚ) / truth.card) ∧
      recall_spec prediction truth negs =
        some (((prediction ∩ (truth ∪ negs) ∩ truth).card : ℚ) / truth.card)) := by
  constructor
  · simp only [precision, precision_spec, restrict_eq_inter, Finset.card_eq_zero]
  · intro h
    have hc : truth.card ≠ 0 := by
      simpa [Finset.card_eq_zero] using h
    constructor
    · simp [recall_code, restrict_eq_inter, hc]
    · simp [recall_spec, h]

/-- Witness for C1 at a concrete input. -/
theorem c1_witness :
    (({("a", "b", "P")} : Finset E3) ≠ ∅) ∧
    recall_code {("a", "b", "P")} {("a", "b", "P")} ∅ =
      .ok ((({("a", "b", "P")} ∩ ({("a", "b", "P")} ∪ ∅) ∩ {("a", "b", "P")} : Finset E3).card : ℚ) /
        ({("a", "b", "P")} : Finset E3).card) := by
  refine ⟨by decide, ?_⟩
  exact (c1_precision_recall_restricted {("a", "b", "P")} {("a", "b", "P")} ∅).2 (by decide) |>.1

/-- Python dict assignment `p[b] = a` on a dict represented as an
insertion-ordered association list: overwrite in place if the key is
present, else append. -/
def dict_insert (p : List (ℚ × Option ℚ)) (b : ℚ) (a : Option ℚ) : List (ℚ × Option ℚ) :=
  if p.any (fun e => e.1 = b) then p.map (fun e => if e.1 = b then (b, a) else e)
  else p ++ [(b, a)]

/-- The loop body of `pr_edges` (make_pr.py lines 98-110) in full-sweep
mode: for each rank value `k` (in the iteration order `ks` of
`set(predictions['rank'])`), compute `a = precision(...)`,
`b = recall(...)` on `make_edges(get_k(k, predictions))` and set
`p[b] = a`; a `ZeroDivisionError` from `recall` propagates. -/
def pr_loop (truth negs : Finset E3) (df : List PRow) :
    List ℚ → List (ℚ × Option ℚ) → Except PyError (List (ℚ × Option ℚ))
  | [], p => .ok p
  | k :: ks, p =>
    match recall_code (make_edges (get_k k df)) truth negs with
    | .error e => .error e
    | .ok b =>
      pr_loop truth negs df ks
        (dict_insert p b (precision (make_edges (get_k k df)) truth negs))

/-- `pr_edges` (make_pr.py lines 70-118), ranked branch: build the
recall-keyed dict of precision values (single point at
`max(set(predictions['rank']))` when `point`, else the full sweep over
`ks`, the iteration order of `set(predictions['rank'])`), then drop
entries with `v != 0 and k != 0` false, i.e. keep entries whose precision
is not 0 (`np.NaN` compares unequal to 0, so `none` is kept here) and
whose recall is not 0. -/
def pr_edges (predictions : List PRow) (ground : List E3) (negs : Finset E3)
    (ks : List ℚ) (point : Bool) : Except PyError (List (ℚ × Option ℚ)) :=
  let truth := make_edges ground
  let raw : Except PyError (List (ℚ × Option ℚ)) :=
    if point then
      match (predictions.map PRow.rank).max? with
      | none => .error .valueError
      | some k =>
        match recall_code (make_edges (get_k k predictions)) truth negs with
        | .error e => .error e
        | .ok b => .ok [(b, precision (make_edges (get_k k predictions)) truth negs)]
    else pr_loop truth negs predictions ks []
  raw.map (List.filter (fun e => decide (e.2 ≠ some 0 ∧ e.1 ≠ 0)))

/-- The (recall, precision) pair that the sweep computes at rank
threshold `k` (meaningful when the truth set is non-empty, where
`recall_code` succeeds with exactly this recall value). -/
def sweep (truth negs : Finset E3) (df : List PRow) (k : ℚ) : ℚ × Option ℚ :=
  (((restrict (make_edges (get_k k df)) truth negs ∩ truth).card : ℚ) / truth.card,
    precision (make_edges (get_k k df)) truth negs)

/-- The pure value of the full-sweep dict loop when the truth set is
non-empty (so no `ZeroDivisionError` interrupts it). -/
def dict_sweep (truth negs : Finset E3) (df : List PRow) :
    List ℚ → List (ℚ × Option ℚ) → List (ℚ × Option ℚ)
  | [], p => p
  | k :: ks, p =>
    dict_sweep truth negs df ks
      (dict_insert p (sweep truth negs df k).1 (sweep truth negs df k).2)

lemma pr_loop_ok (truth negs : Finset E3) (df : List PRow) (hc : truth.card ≠ 0) :
    ∀ (ks : List ℚ) (p : List (ℚ × Option ℚ)),
      pr_loop truth negs df ks p = .ok (dict_sweep truth negs df ks p)
  | [], _ => rfl
  | k :: ks, p => by
    simp only [pr_loop, recall_code, hc, if_neg, dict_sweep]
    exact pr_loop_ok truth negs df hc ks _

lemma mem_dict_insert {p : List (ℚ × Option ℚ)} {b : ℚ} {a : Option ℚ} {e : ℚ × Option ℚ}
    (he : e ∈ dict_insert p b a) : e ∈ p ∨ e = (b, a) := by
  rw [dict_insert] at he
  split at he
  · obtain ⟨e', he', hfe⟩ := List.mem_map.mp he
    by_cases hb : e'.1 = b
    · rw [if_pos hb] at hfe
      exact .inr hfe.symm
    · rw [if_neg hb] at hfe
      exact .inl (hfe ▸ he')
  · rcases List.mem_append.mp he with h | h
    · exact .inl h
    · exact .inr (List.mem_singleton.mp h)

lemma dict_insert_keeps_key {p : List (ℚ × Option ℚ)} {c b : ℚ} {a v : Option ℚ}
    (hv : (c, v) ∈ p) : ∃ v', (c, v') ∈ dict_insert p b a := by
  rw [dict_insert]
  split
  · by_cases hb : c = b
    · exact ⟨a, List.mem_map.mpr ⟨(c, v), hv, by simp [hb]⟩⟩
    · exact ⟨v, List.mem_map.mpr ⟨(c, v), hv, by simp [hb]⟩⟩
  · exact ⟨v, by simp [hv]⟩

lemma dict_insert_mem_key (p : List (ℚ × Option ℚ)) (b : ℚ) (a : Option ℚ) :
    ∃ v, (b, v) ∈ dict_insert p b a := by
  rw [dict_insert]
  split
  · next h =>
    obtain ⟨e, he, hb⟩ := List.any_eq_true.mp h
    refine ⟨a, List.mem_map.mpr ⟨e, he, ?_⟩⟩
    rw [if_pos (of_decide_eq_true hb)]
  · exact ⟨a, by simp⟩

lemma dict_sweep_mem (truth negs : Finset E3) (df : List PRow) :
    ∀ (ks : List ℚ) (p : List (ℚ × Option ℚ)), ∀ e ∈ dict_sweep truth negs df ks p,
      e ∈ p ∨ ∃ k ∈ ks, e = sweep truth negs df k
  | [], _, _, he => .inl he
  | k :: ks, p, e, he => by
    rcases dict_sweep_mem truth negs df ks _ e he with h | ⟨k', hk', he'⟩
    · rcases mem_dict_insert h with h' | h'
      · exact .inl h'
      · exact .inr ⟨k, List.mem_cons_self k ks, by simpa using h'⟩
    · exact .inr ⟨k', List.mem_cons_of_mem _ hk', he'⟩

lemma dict_sweep_keeps_key (truth negs : Finset E3) (df : List PRow) :
    ∀ (ks : List ℚ) (p : List (ℚ × Option ℚ)) (c : ℚ) (v : Option ℚ), (c, v) ∈ p →
      ∃ v', (c, v') ∈ dict_sweep truth negs df ks p
  | [], _, _, v, hv => ⟨v, hv⟩
  | k :: ks, p, c, v, hv => by
    obtain ⟨v', hv'⟩ :=
      dict_insert_keeps_key (b := (sweep truth negs df k).1) (a := (sweep truth negs df k).2) hv
    exact dict_sweep_keeps_key truth negs df ks _ c v' hv'

lemma dict_sweep_covers (truth negs : Finset E3) (df : List PRow) :
    ∀ (ks : List ℚ) (p : List (ℚ × Option ℚ)), ∀ k ∈ ks,
      ∃ v, ((sweep truth negs df k).1, v) ∈ dict_sweep truth negs df ks p
  | [], _, k, hk => absurd hk (List.not_mem_nil k)
  | k0 :: ks, p, k, hk => by
    rcases List.mem_cons.mp hk with rfl | hk'
    · obtain ⟨v, hv⟩ := dict_insert_mem_key p (sweep truth negs df k).1 (sweep truth negs df k).2
      exact dict_sweep_keeps_key truth negs df ks _ _ v hv
    · exact dict_sweep_covers truth negs df ks _ k hk'

/-- Example ranked-prediction table: one true edge at rank 1, one
negative edge at rank 2. -/
def ex_pred : List PRow := [⟨"t1", "t2", "P", 1⟩, ⟨"n1", "n2", "P", 2⟩]

/-- Example ground-truth table, a single edge. -/
def ex_ground : List E3 := [("t1", "t2", "P")]

/-- Example negative set, a single edge. -/
def ex_negs : Finset E3 := {("n1", "n2", "P")}

/-- C2 is false as stated: on `ex_pred` (two distinct rank values, 1 and
2), both `[1, 2]` and `[2, 1]` enumerate the distinct ranks without
repetition, yet the two iteration orders give different curves, and the
curve for `[1, 2]` holds a single pair, not one pair per distinct rank —
the dict is keyed on recall, and both thresholds yield recall 1, so the
later-iterated pair overwrites the earlier one. -/
lemma recall_code_ok {truth : Finset E3} (hc : truth.card ≠ 0)
    (prediction negs : Finset E3) :
    recall_code prediction truth negs =
      .ok (((restrict prediction truth negs ∩ truth).card : ℚ) / truth.card) := by
  simp [recall_code, hc]

lemma ex_sweep_one :
    sweep (make_edges ex_ground) ex_negs ex_pred 1 = (1, some 1) := by
  have h1 : (restrict (make_edges (get_k 1 ex_pred)) (make_edges ex_ground) ex_negs ∩
      make_edges ex_ground).card = 1 := by decide
  have h3 : (restrict (make_edges (get_k 1 ex_pred)) (make_edges ex_ground) ex_negs).card = 1 := by
    decide
  have h4 : (make_edges ex_ground).card = 1 := by decide
  simp only [sweep, precision, h1, h3, h4]
  norm_num

lemma ex_sweep_two :
    sweep (make_edges ex_ground) ex_negs ex_pred 2 = (1, some (1 / 2)) := by
  have h1 : (restrict (make_edges (get_k 2 ex_pred)) (make_edges ex_ground) ex_negs ∩
      make_edges ex_ground).card = 1 := by decide
  have h3 : (restrict (make_edges (get_k 2 ex_pred)) (make_edges ex_ground) ex_negs).card = 2 := by
    decide
  have h4 : (make_edges ex_ground).card = 1 := by decide
  simp only [sweep, precision, h1, h3, h4]
  norm_num

lemma ex_curve_fwd :
    pr_edges ex_pred ex_ground ex_negs [1, 2] false = .ok [(1, some (1 / 2))] := by
  have hc : (make_edges ex_ground).card ≠ 0 := by decide
  simp only [pr_edges, Bool.false_eq_true, if_false, pr_loop_ok _ _ _ hc, Except.map,
    dict_sweep, ex_sweep_one, ex_sweep_two]
  norm_num [dict_insert, List.filter]

lemma ex_curve_bwd :
    pr_edges ex_pred ex_ground ex_negs [2, 1] false = .ok [(1, some 1)] := by
  have hc : (make_edges ex_ground).card ≠ 0 := by decide
  simp only [pr_edges, Bool.false_eq_true, if_false, pr_loop_ok _ _ _ hc, Except.map,
    dict_sweep, ex_sweep_one, ex_sweep_two]
  norm_num [dict_insert, List.filter]

theorem c2_counterexample :
    ([(1 : ℚ), 2].Nodup ∧ [(1 : ℚ), 2].toFinset = (ex_pred.map PRow.rank).toFinset) ∧
    ([(2 : ℚ), 1].Nodup ∧ [(2 : ℚ), 1].toFinset = (ex_pred.map PRow.rank).toFinset) ∧
    pr_edges ex_pred ex_ground ex_negs [1, 2] false ≠
      pr_edges ex_pred ex_ground ex_negs [2, 1] false ∧
    pr_edges ex_pred ex_ground ex_negs [1, 2] false = .ok [(1, some (1 / 2))] ∧
    pr_edges ex_pred ex_ground ex_negs [2, 1] false = .ok [(1, some 1)] := by
  refine ⟨⟨by decide, by decide⟩, ⟨by decide, by decide⟩, ?_, ex_curve_fwd, ex_curve_bwd⟩
  rw [ex_curve_fwd, ex_curve_bwd]
  simp only [ne_eq, Except.ok.injEq, List.cons.injEq, Prod.mk.injEq, Option.some.injEq]
  norm_num

/-- C2 (amended): for each distinct rank value `k` in iteration order
`ks`, the full sweep computes the pair `sweep k` from the rows of rank
at most `k` and stores it in a recall-keyed dict: the returned curve is
the degenerate-point filter of that dict, every dict entry is `sweep k`
for some swept `k`, and every swept `k` has its recall value present as
a key (though its precision may have been overwritten by a later `k`
with equal recall, so iteration order can affect the result); in
single-point mode the curve is the filter of the single pair computed at
the maximum rank present. -/
theorem c2_amended_sweep (predictions : List PRow) (ground : List E3) (negs : Finset E3)
    (ks : List ℚ) (hne : make_edges ground ≠ ∅) (hnd : ks.Nodup)
    (hks : ks.toFinset = (predictions.map PRow.rank).toFinset) :
    pr_edges predictions ground negs ks false =
      .ok ((dict_sweep (make_edges ground) negs predictions ks []).filter
        (fun e => decide (e.2 ≠ some 0 ∧ e.1 ≠ 0))) ∧
    (∀ e ∈ dict_sweep (make_edges ground) negs predictions ks [],
      ∃ k ∈ ks, e = sweep (make_edges ground) negs predictions k) ∧
    (∀ k ∈ ks, ∃ v,
      ((sweep (make_edges ground) negs predictions k).1, v) ∈
        dict_sweep (make_edges ground) negs predictions ks []) ∧
    (∀ kmax, (predictions.map PRow.rank).max? = some kmax →
      pr_edges predictions ground negs ks true =
        .ok ([sweep (make_edges ground) negs predictions kmax].filter
          (fun e => decide (e.2 ≠ some 0 ∧ e.1 ≠ 0)))) := by
  have hc : (make_edges ground).card ≠ 0 := by
    simpa [Finset.card_eq_zero] using hne
  refine ⟨?_, ?_, ?_, ?_⟩
  · simp only [pr_edges, Bool.false_eq_true, if_false,
      pr_loop_ok (make_edges ground) negs predictions hc, Except.map]
  · intro e he
    rcases dict_sweep_mem (make_edges ground) negs predictions ks [] e he with h | h
    · exact absurd h (List.not_mem_nil e)
    · exact h
  · exact fun k hk => dict_sweep_covers (make_edges ground) negs predictions ks [] k hk
  · intro kmax hmax
    simp only [pr_edges, if_true, hmax, recall_code_ok hc, Except.map, sweep]

/-- Witness for C2 (amended) at a concrete input. -/
theorem c2_witness :
    (make_edges ex_ground ≠ ∅ ∧ [(1 : ℚ), 2].Nodup ∧
      [(1 : ℚ), 2].toFinset = (ex_pred.map PRow.rank).toFinset) ∧
    pr_edges ex_pred ex_ground ex_negs [1, 2] false =
      .ok ((dict_sweep (make_edges ex_ground) ex_negs ex_pred [1, 2] []).filter
        (fun e => decide (e.2 ≠ some 0 ∧ e.1 ≠ 0))) :=
  ⟨⟨by decide, by decide, by decide⟩,
    (c2_amended_sweep ex_pred ex_ground ex_negs [1, 2] (by decide) (by decide) (by decide)).1⟩

lemma precision_none_iff (prediction truth negs : Finset E3) :
    precision prediction truth negs = none ↔ restrict prediction truth negs = ∅ := by
  simp only [precision]
  split
  · next h => simpa [Finset.card_eq_zero] using h
  · next h =>
    simp only [reduceCtorEq, false_iff]
    intro he
    rw [he] at h
    simp at h

lemma recall_zero_of_precision_none {prediction truth negs : Finset E3} {b : ℚ}
    (hr : recall_code prediction truth negs = .ok b)
    (hp : precision prediction truth negs = none) : b = 0 := by
  rw [recall_code] at hr
  split at hr
  · exact absurd hr (by simp)
  · injection hr with hb
    rw [precision_none_iff] at hp
    rw [hp] at hb
    simpa using hb.symm

lemma pr_loop_none_key (truth negs : Finset E3) (df : List PRow) :
    ∀ (ks : List ℚ) (p res : List (ℚ × Option ℚ)),
      pr_loop truth negs df ks p = .ok res →
      (∀ e ∈ p, e.2 = none → e.1 = 0) → ∀ e ∈ res, e.2 = none → e.1 = 0
  | [], p, res, h, hp => by
    simp only [pr_loop] at h
    obtain rfl : p = res := by injection h
    exact hp
  | k :: ks, p, res, h, hp => by
    simp only [pr_loop] at h
    cases hr : recall_code (make_edges (get_k k df)) truth negs with
    | error e => rw [hr] at h; exact absurd h (by simp)
    | ok b =>
      rw [hr] at h
      refine pr_loop_none_key truth negs df ks _ res h ?_
      intro e he hn
      rcases mem_dict_insert he with h' | h'
      · exact hp e h' hn
      · rw [h'] at hn ⊢
        exact recall_zero_of_precision_none hr hn

/-- C3: when the restricted prediction set is empty, `precision` returns
the explicit `none` marker (`np.NaN` in the source) rather than raising;
and every entry of a successfully returned curve has recall distinct
from 0 and precision distinct from 0 and from the undefined marker (an
undefined precision forces recall 0, so the `k != 0` clause of the final
filter removes such points even though `NaN != 0` is true in Python). -/
theorem c3_undefined_marker_and_filter :
    (∀ prediction truth negs : Finset E3,
      precision prediction truth negs = none ↔ restrict prediction truth negs = ∅) ∧
    (∀ (predictions : List PRow) (ground : List E3) (negs : Finset E3) (ks : List ℚ)
      (point : Bool) (res : List (ℚ × Option ℚ)),
      pr_edges predictions ground negs ks point = .ok res →
      ∀ e ∈ res, e.1 ≠ 0 ∧ e.2 ≠ some 0 ∧ e.2 ≠ none) := by
  refine ⟨precision_none_iff, ?_⟩
  intro predictions ground negs ks point res hok e he
  have hraw : ∃ raw, (if point then
      match (predictions.map PRow.rank).max? with
      | none => .error .valueError
      | some k =>
        match recall_code (make_edges (get_k k predictions)) (make_edges ground) negs with
        | .error e => .error e
        | .ok b => .ok [(b, precision (make_edges (get_k k predictions)) (make_edges ground) negs)]
      else pr_loop (make_edges ground) negs predictions ks []) = .ok raw ∧
      res = raw.filter (fun e => decide (e.2 ≠ some 0 ∧ e.1 ≠ 0)) ∧
      (∀ x ∈ raw, x.2 = none → x.1 = 0) := by
    rw [pr_edges] at hok
    cases hcase : (if point then
        match (predictions.map PRow.rank).max? with
        | none => .error .valueError
        | some k =>
          match recall_code (make_edges (get_k k predictions)) (make_edges ground) negs with
          | .error e => .error e
          | .ok b => .ok [(b, precision (make_edges (get_k k predictions)) (make_edges ground) negs)]
        else pr_loop (make_edges ground) negs predictions ks []) with
    | error er => rw [hcase] at hok; exact absurd hok (by simp [Except.map])
    | ok raw =>
      rw [hcase] at hok
      refine ⟨raw, rfl, by simpa [Except.map] using hok.symm, ?_⟩
      by_cases hpt : point
      · rw [if_pos hpt] at hcase
        split at hcase
        · exact absurd hcase (by simp)
        · next k hmax =>
          split at hcase
          · exact absurd hcase (by simp)
          · next b hr =>
            obtain rfl :
                [(b, precision (make_edges (get_k k predictions)) (make_edges ground) negs)] =
                  raw := by
              injection hcase
            intro x hx hn
            rw [List.mem_singleton.mp hx] at hn ⊢
            exact recall_zero_of_precision_none hr hn
      · rw [if_neg hpt] at hcase
        exact pr_loop_none_key (make_edges ground) negs predictions ks [] raw hcase
          (fun x hx => absurd hx (List.not_mem_nil x))
  obtain ⟨raw, _, hres, hinv⟩ := hraw
  rw [hres] at he
  have hmem := List.mem_filter.mp he
  have hcond := of_decide_eq_true hmem.2
  refine ⟨hcond.2, hcond.1, ?_⟩
  intro hn
  exact hcond.2 (hinv e hmem.1 hn)

/-- Witness for C3 at a concrete input. -/
theorem c3_witness :
    precision ∅ (make_edges ex_ground) ex_negs = none ∧
    ((1 : ℚ) ≠ 0 ∧ (some ((1 : ℚ) / 2) : Option ℚ) ≠ some 0 ∧
      (some ((1 : ℚ) / 2) : Option ℚ) ≠ none) :=
  ⟨(c3_undefined_marker_and_filter.1 ∅ (make_edges ex_ground) ex_negs).mpr (by decide),
    c3_undefined_marker_and_filter.2 ex_pred ex_ground ex_negs [1, 2] false _ ex_curve_fwd
      (1, some (1 / 2)) (List.mem_singleton.mpr rfl)⟩

/-- C4: with the truth (non-empty) and negatives held fixed, the recall
computed from the rank-at-most-`k` prediction subset is non-decreasing
in the threshold `k`: for thresholds `k1 ≤ k2` both present in the
table, recall at `k2` is at least recall at `k1`. -/
theorem c4_recall_monotone (df : List PRow) (truth negs : Finset E3) (k1 k2 : ℚ)
    (hk1 : k1 ∈ df.map PRow.rank) (hk2 : k2 ∈ df.map PRow.rank)
    (h12 : k1 ≤ k2) (hne : truth ≠ ∅) :
    ∃ r1 r2, recall_code (make_edges (get_k k1 df)) truth negs = .ok r1 ∧
      recall_code (make_edges (get_k k2 df)) truth negs = .ok r2 ∧ r1 ≤ r2 := by
  have hc : truth.card ≠ 0 := by simpa [Finset.card_eq_zero] using hne
  refine ⟨_, _, recall_code_ok hc _ _, recall_code_ok hc _ _, ?_⟩
  have hsub : make_edges (get_k k1 df) ⊆ make_edges (get_k k2 df) := by
    intro x hx
    simp only [make_edges, List.mem_toFinset, get_k, List.mem_map, List.mem_filter] at hx ⊢
    obtain ⟨r, ⟨hr, hrk⟩, hxe⟩ := hx
    exact ⟨r, ⟨hr, decide_eq_true (le_trans (of_decide_eq_true hrk) h12)⟩, hxe⟩
  have hres : restrict (make_edges (get_k k1 df)) truth negs ⊆
      restrict (make_edges (get_k k2 df)) truth negs := by
    intro x hx
    rw [restrict, Finset.mem_filter] at hx ⊢
    exact ⟨hsub hx.1, hx.2⟩
  have hmono : (restrict (make_edges (get_k k1 df)) truth negs ∩ truth).card ≤
      (restrict (make_edges (get_k k2 df)) truth negs ∩ truth).card :=
    Finset.card_le_card (Finset.inter_subset_inter hres (Finset.Subset.refl truth))
  have hpos : (0 : ℚ) < truth.card := by
    exact_mod_cast Nat.pos_of_ne_zero hc
  rw [div_le_div_iff_of_pos_right hpos]
  exact_mod_cast hmono

/-- Witness for C4 at a concrete input. -/
theorem c4_witness :
    ((1 : ℚ) ∈ ex_pred.map PRow.rank ∧ (2 : ℚ) ∈ ex_pred.map PRow.rank ∧
      (1 : ℚ) ≤ 2 ∧ make_edges ex_ground ≠ ∅) ∧
    (∃ r1 r2, recall_code (make_edges (get_k 1 ex_pred)) (make_edges ex_ground) ex_negs = .ok r1 ∧
      recall_code (make_edges (get_k 2 ex_pred)) (make_edges ex_ground) ex_negs = .ok r2 ∧
      r1 ≤ r2) :=
  ⟨⟨by decide, by decide, by decide, by decide⟩,
    c4_recall_monotone ex_pred (make_edges ex_ground) ex_negs 1 2
      (by decide) (by decide) (by decide) (by decide)⟩

/-- One evaluation run as the Coherence Verifier sees it: its directory
name (`algorithm_interactome_pathway`) and the contents of its persisted
`negatives.csv` artifact (rows of the dataframe read by `utils.read_df`;
`df.equals` is structural equality, i.e. equality of the row list). -/
structure Run where
  name : String
  negdf : List String
deriving DecidableEq

/-- `verify_negatives` (plot_pr.py lines 27-47) with the default
`node_motivation=False`, so the only file compared is `negatives.csv`:
the first run's dataframe is compared against every other run's with
`df.equals`. Reading `lat[0]` of an empty list raises, embedded as
`none`. -/
def verify_negatives : List Run → Option Bool
  | [] => none
  | r :: rs => some (rs.all (fun j => decide (j.negdf = r.negdf)))

/-- The `_`-delimited field `n` of a run name, as `x.split('_')[n]`. -/
def run_field (n : Nat) (s : String) : String :=
  (s.splitOn "_").getD n ""

/-- `verify_pathway` (plot_pr.py lines 49-59): the third `_`-delimited
field of the first run's name is compared against every other run's. -/
def verify_pathway : List Run → Option Bool
  | [] => none
  | r :: rs => some (rs.all (fun j => decide (run_field 2 j.name = run_field 2 r.name)))

/-- `verify_interactome` (plot_pr.py lines 61-71): the second
`_`-delimited field of the first run's name is compared against every
other run's. -/
def verify_interactome : List Run → Option Bool
  | [] => none
  | r :: rs => some (rs.all (fun j => decide (run_field 1 j.name = run_field 1 r.name)))

/-- `verify_coherence` (plot_pr.py lines 73-78):
`all([verify_negatives(lat), verify_pathway(lat), verify_interactome(lat)])`. -/
def verify_coherence (lat : List Run) : Option Bool :=
  match verify_negatives lat, verify_pathway lat, verify_interactome lat with
  | some a, some b, some c => some (a && b && c)
  | _, _, _ => none

/-- C5: on a non-empty run list, `verify_coherence` returns true iff
every run's negative artifact equals the first run's (structural
dataframe equality), every run's third `_`-field equals the first's, and
every run's second `_`-field equals the first's; in particular it
returns false whenever any run's negative artifact differs from the
first run's. -/
theorem c5_verify_coherence_iff (r : Run) (rs : List Run) :
    (verify_coherence (r :: rs) = some true ↔
      (∀ j ∈ r :: rs, j.negdf = r.negdf ∧
        run_field 2 j.name = run_field 2 r.name ∧
        run_field 1 j.name = run_field 1 r.name)) ∧
    (∀ j ∈ r :: rs, j.negdf ≠ r.negdf → verify_coherence (r :: rs) = some false) := by
  have hexp : verify_coherence (r :: rs) =
      some ((rs.all (fun j => decide (j.negdf = r.negdf)) &&
        rs.all (fun j => decide (run_field 2 j.name = run_field 2 r.name))) &&
        rs.all (fun j => decide (run_field 1 j.name = run_field 1 r.name))) := rfl
  constructor
  · rw [hexp]
    simp only [Option.some.injEq, Bool.and_eq_true, List.all_eq_true, decide_eq_true_eq,
      List.mem_cons]
    constructor
    · rintro ⟨⟨hn, hp⟩, hi⟩ j hj
      rcases hj with rfl | hj
      · exact ⟨rfl, rfl, rfl⟩
      · exact ⟨hn j hj, hp j hj, hi j hj⟩
    · intro h
      exact ⟨⟨fun j hj => (h j (.inr hj)).1, fun j hj => (h j (.inr hj)).2.1⟩,
        fun j hj => (h j (.inr hj)).2.2⟩
  · intro j hj hne
    rw [hexp]
    rcases List.mem_cons.mp hj with rfl | hj'
    · exact absurd rfl hne
    · have : rs.all (fun j => decide (j.negdf = r.negdf)) = false := by
        rw [List.all_eq_false]
        exact ⟨j, hj', by simpa using hne⟩
      rw [this]
      simp

/-- Witness for C5 at a concrete input: two runs with different
negative artifacts make `verify_coherence` return false. -/
theorem c5_witness :
    (⟨"A_i_P", ["x"]⟩ : Run) ∈
      [(⟨"B_i_P", ["y"]⟩ : Run), ⟨"A_i_P", ["x"]⟩] ∧
    (⟨"A_i_P", ["x"]⟩ : Run).negdf ≠ (⟨"B_i_P", ["y"]⟩ : Run).negdf ∧
    verify_coherence [⟨"B_i_P", ["y"]⟩, ⟨"A_i_P", ["x"]⟩] = some false :=
  ⟨by decide, by decide,
    (c5_verify_coherence_iff ⟨"B_i_P", ["y"]⟩ [⟨"A_i_P", ["x"]⟩]).2
      ⟨"A_i_P", ["x"]⟩ (by decide) (by decide)⟩

/-- `negatives` (make_pr.py lines 229-244). The candidate pool is
`make_edges(interactome.take([0,1],axis=1)) - positives`; `num` defaults
to `len(positives)*50` when 0. With `bivalent=True` the untagged pool
(2-tuples) is returned. Otherwise `random.sample(list(edges), k=num)`
draws `num` distinct elements uniformly without replacement — embedded
as taking the first `num` elements of `rand edges`, where `rand` is the
injected random ordering of `list(edges)` (any ordering of the pool is a
possible draw) — raising the builtin `ValueError` when `num` exceeds the
population size; each sampled pair is then tagged with `pname` as a
3-tuple. -/
def negatives (rand : Finset E2 → List E2) (interactome : List E2) (positives : Finset E2)
    (pname : String) (num : Nat) (bivalent : Bool) :
    Except PyError (Finset E2 ⊕ Finset E3) :=
  let n := if num = 0 then positives.card * 50 else num
  let edges := make_edges interactome \ positives
  if bivalent then .ok (.inl edges)
  else if n ≤ edges.card then
    .ok (.inr (((rand edges).take n).toFinset.image (fun p => (p.1, p.2, pname))))
  else .error .valueError

/-- C6 is false as stated: on a candidate pool of size 1 and a request
for 5 elements, the sampler fails — but with the untyped builtin
`ValueError` raised by `random.sample`; no `InsufficientCandidatesError`
type exists anywhere in the code. -/
theorem c6_counterexample :
    negatives (fun _ => []) [("a", "b"), ("c", "d")] {("a", "b")} "P" 5 false =
      .error PyError.valueError := by
  decide

/-- C6 (amended): the sampler draws `count` elements without replacement
from the candidate pool (interactome edge set minus positives) — any
ordering of the pool being a possible draw — with `count` defaulting to
`50 × |positives|` when 0/unspecified, and it fails with the untyped
builtin `ValueError` (not a typed `InsufficientCandidatesError`, which
the code does not define) whenever `count` exceeds the candidate pool
size. `hnd`/`hmem` say the injected ordering `rand` is a permutation of
the pool. -/
theorem c6_amended_sampler (rand : Finset E2 → List E2)
    (interactome : List E2) (positives : Finset E2) (pname : String) (num : Nat)
    (hnd : (rand (make_edges interactome \ positives)).Nodup)
    (hmem : (rand (make_edges interactome \ positives)).toFinset =
      make_edges interactome \ positives) :
    ((if num = 0 then positives.card * 50 else num) ≤
        (make_edges interactome \ positives).card →
      ∃ S : Finset E2, S ⊆ make_edges interactome \ positives ∧
        S.card = (if num = 0 then positives.card * 50 else num) ∧
        negatives rand interactome positives pname num false =
          .ok (.inr (S.image (fun p => (p.1, p.2, pname))))) ∧
    ((make_edges interactome \ positives).card <
        (if num = 0 then positives.card * 50 else num) →
      negatives rand interactome positives pname num false = .error .valueError) := by
  constructor
  · intro hle
    refine ⟨((rand (make_edges interactome \ positives)).take
      (if num = 0 then positives.card * 50 else num)).toFinset, ?_, ?_, ?_⟩
    · intro x hx
      rw [List.mem_toFinset] at hx
      have hx' : x ∈ rand (make_edges interactome \ positives) :=
        List.mem_of_mem_take hx
      rw [← hmem]
      exact List.mem_toFinset.mpr hx'
    · have hndt : ((rand (make_edges interactome \ positives)).take
          (if num = 0 then positives.card * 50 else num)).Nodup :=
        hnd.sublist (List.take_sublist _ _)
      rw [List.toFinset_card_of_nodup hndt, List.length_take]
      have hlen : (rand (make_edges interactome \ positives)).length =
          (make_edges interactome \ positives).card := by
        rw [← List.toFinset_card_of_nodup hnd, hmem]
      rw [hlen]
      exact Nat.min_eq_left hle
    · simp [negatives, hle]
  · intro hlt
    simp [negatives, Nat.not_le.mpr hlt, Nat.le_of_lt_succ]

/-- Witness for C6 (amended) at a concrete input. -/
theorem c6_witness :
    ((fun (_ : Finset E2) => [(("c" : String), ("d" : String))])
        (make_edges [("a", "b"), ("c", "d")] \ {("a", "b")})).Nodup ∧
    (1 ≤ (make_edges [("a", "b"), ("c", "d")] \ ({("a", "b")} : Finset E2)).card) ∧
    (∃ S : Finset E2, S ⊆ make_edges [("a", "b"), ("c", "d")] \ {("a", "b")} ∧
      S.card = 1 ∧
      negatives (fun _ => [("c", "d")]) [("a", "b"), ("c", "d")] {("a", "b")} "P" 1 false =
        .ok (.inr (S.image (fun p => (p.1, p.2, "P"))))) := by
  refine ⟨by decide, by decide, ?_⟩
  have h := (c6_amended_sampler (fun _ => [("c", "d")]) [("a", "b"), ("c", "d")]
    {("a", "b")} "P" 1 (by decide) (by decide)).1
  simpa using h (by decide)

/-- C7: with `bivalent=True` the sampler returns the full candidate
pool — the interactome edge set minus the positives — which, when the
positives lie inside the interactome edge set, has exactly
`|interactome| − |positives|` elements. -/
theorem c7_bivalent_pool (rand : Finset E2 → List E2) (interactome : List E2)
    (positives : Finset E2) (pname : String) (num : Nat) :
    negatives rand interactome positives pname num true =
      .ok (.inl (make_edges interactome \ positives)) ∧
    (positives ⊆ make_edges interactome →
      (make_edges interactome \ positives).card =
        (make_edges interactome).card - positives.card) := by
  exact ⟨by simp [negatives], fun h => Finset.card_sdiff h⟩

/-- Witness for C7 at a concrete input. -/
theorem c7_witness :
    (({("a", "b")} : Finset E2) ⊆ make_edges [("a", "b"), ("c", "d")]) ∧
    negatives (fun _ => []) [("a", "b"), ("c", "d")] {("a", "b")} "P" 0 true =
      .ok (.inl (make_edges [("a", "b"), ("c", "d")] \ {("a", "b")})) ∧
    (make_edges [("a", "b"), ("c", "d")] \ ({("a", "b")} : Finset E2)).card =
      (make_edges [("a", "b"), ("c", "d")]).card - ({("a", "b")} : Finset E2).card :=
  ⟨by decide,
    (c7_bivalent_pool (fun _ => []) [("a", "b"), ("c", "d")] {("a", "b")} "P" 0).1,
    (c7_bivalent_pool (fun _ => []) [("a", "b"), ("c", "d")] {("a", "b")} "P" 0).2 (by decide)⟩

/-- C10: the shape of the sampler's return value depends on the
`bivalent` flag: with `bivalent=False` every successful result is a set
of 3-tuples each tagged with the given pathway name, while with
`bivalent=True` it is a set of untagged 2-tuples. -/
theorem c10_negatives_shape (rand : Finset E2 → List E2) (interactome : List E2)
    (positives : Finset E2) (pname : String) (num : Nat) :
    (∀ r, negatives rand interactome positives pname num false = .ok r →
      ∃ s : Finset E3, r = .inr s ∧ ∀ e ∈ s, e.2.2 = pname) ∧
    (∀ r, negatives rand interactome positives pname num true = .ok r →
      ∃ s : Finset E2, r = .inl s) := by
  constructor
  · intro r hr
    by_cases hc : (if num = 0 then positives.card * 50 else num) ≤
        (make_edges interactome \ positives).card
    · have hok : negatives rand interactome positives pname num false =
          .ok (.inr (((rand (make_edges interactome \ positives)).take
            (if num = 0 then positives.card * 50 else num)).toFinset.image
              (fun p => (p.1, p.2, pname)))) := by
        simp [negatives, hc]
      rw [hok] at hr
      injection hr with hr'
      refine ⟨_, hr'.symm, ?_⟩
      intro e he
      rw [Finset.mem_image] at he
      obtain ⟨p, _, hpe⟩ := he
      rw [← hpe]
    · have herr : negatives rand interactome positives pname num false =
          .error .valueError := by
        simp [negatives, hc]
      rw [herr] at hr
      exact absurd hr (by simp)
  · intro r hr
    have hok : (Sum.inl (make_edges interactome \ positives) : Finset E2 ⊕ Finset E3) = r := by
      have h7 : negatives rand interactome positives pname num true =
          .ok (.inl (make_edges interactome \ positives)) := by simp [negatives]
      rw [h7] at hr
      injection hr
    exact ⟨_, hok.symm⟩

/-- Witness for C10 at a concrete input. -/
theorem c10_witness :
    (∃ s : Finset E3,
      (Sum.inr (({("c", "d")} : Finset E2).image (fun p => (p.1, p.2, "P"))) :
        Finset E2 ⊕ Finset E3) = .inr s ∧ ∀ e ∈ s, e.2.2 = "P") ∧
    (∃ s : Finset E2,
      (Sum.inl (make_edges [("a", "b"), ("c", "d")] \ ({("a", "b")} : Finset E2)) :
        Finset E2 ⊕ Finset E3) = .inl s) :=
  ⟨(c10_negatives_shape (fun _ => [("c", "d")]) [("a", "b"), ("c", "d")]
      {("a", "b")} "P" 1).1 _ (by decide),
    (c10_negatives_shape (fun _ => [("c", "d")]) [("a", "b"), ("c", "d")]
      {("a", "b")} "P" 1).2 _ (by decide)⟩

/-- Character-list version of "the first list is an initial segment of
the second". -/
def chars_le : List Char → List Char → Bool
  | [], _ => true
  | _ :: _, [] => false
  | a :: as, b :: bs => a == b && chars_le as bs

/-- Python's substring test `needle in hay`, used by `sanity_check`
(`A in x`, `P in d`). -/
def strContains (hay needle : String) : Bool :=
  hay.toList.tails.any (fun t => chars_le needle.toList t)

/-- `sanity_check` (gen_pathway_union.py lines 37-48): `dirs` is every
directory name containing the algorithm name as a substring, and the
check succeeds iff every pathway name occurs as a substring of some such
directory name (the Python loop returns False at the first pathway with
no match). -/
def sanity_check (listing : List String) (pathways : List String) (A : String) : Bool :=
  let dirs := listing.filter (fun x => strContains x A)
  pathways.all (fun P => dirs.any (fun d => strContains d P))

/-- The `unsafe_algorithms` list built by `main`
(gen_pathway_union.py lines 98-103): every configured algorithm failing
the sanity check, in catalog order. -/
def failing_algorithms (listing pathways algorithms : List String) : List String :=
  algorithms.filter (fun A => ! sanity_check listing pathways A)

/-- The abort decision of `main` (gen_pathway_union.py lines 104-106):
if any algorithm fails the sanity check, print the failing algorithm
names and return without building anything — embedded as an `Except`
whose error payload is exactly the reported name list. -/
def main_guard (listing pathways algorithms : List String) : Except (List String) Unit :=
  if failing_algorithms listing pathways algorithms = [] then .ok ()
  else .error (failing_algorithms listing pathways algorithms)

/-- The enumeration the claim asserts (spec side): every
(algorithm, pathway) pair such that no directory of the algorithm
mentions the pathway. -/
def missing_pairs (listing pathways algorithms : List String) : List (String × String) :=
  algorithms.flatMap (fun A =>
    (pathways.filter (fun P =>
      ! (listing.filter (fun x => strContains x A)).any (fun d => strContains d P))).map
        (fun P => (A, P)))

/-- C8 is false as stated: two catalogs in which algorithm `X` is
missing different sets of pathways (`{Q}` versus `{P, Q}`) make `main`
abort with the identical report `["X"]`, so the code cannot be
enumerating every missing (algorithm, pathway) pair; nor is any typed
`MissingAlgorithmDataError` raised — `main` prints and returns. -/
theorem c8_counterexample :
    main_guard ["X_i_P"] ["P", "Q"] ["X"] = .error ["X"] ∧
    main_guard ["X_i_R"] ["P", "Q"] ["X"] = .error ["X"] ∧
    missing_pairs ["X_i_P"] ["P", "Q"] ["X"] = [("X", "Q")] ∧
    missing_pairs ["X_i_R"] ["P", "Q"] ["X"] = [("X", "P"), ("X", "Q")] ∧
    main_guard ["X_i_P"] ["P", "Q"] ["X"] = main_guard ["X_i_R"] ["P", "Q"] ["X"] ∧
    missing_pairs ["X_i_P"] ["P", "Q"] ["X"] ≠ missing_pairs ["X_i_R"] ["P", "Q"] ["X"] := by
  refine ⟨?_, ?_, ?_, ?_, ?_, ?_⟩ <;> decide

/-- C8 (amended): before aborting, `main` checks every configured
algorithm (not stopping at the first failure) and aborts — by printing
and returning, not by raising a typed error — reporting exactly the
algorithms that lack data for some required pathway; the report carries
algorithm names only, not (algorithm, pathway) pairs. -/
theorem c8_amended_guard (listing pathways algorithms : List String) :
    (∀ A, A ∈ failing_algorithms listing pathways algorithms ↔
      (A ∈ algorithms ∧ ∃ P ∈ pathways,
        ∀ d ∈ listing, strContains d A = true → strContains d P = false)) ∧
    (∀ l, main_guard listing pathways algorithms = .error l ↔
      (l = failing_algorithms listing pathways algorithms ∧ l ≠ [])) ∧
    (main_guard listing pathways algorithms = .ok () ↔
      failing_algorithms listing pathways algorithms = []) := by
  refine ⟨?_, ?_, ?_⟩
  · intro A
    rw [failing_algorithms, List.mem_filter, Bool.not_eq_true']
    rw [sanity_check]
    rw [List.all_eq_false]
    constructor
    · rintro ⟨hmem, P, hP, hPa⟩
      refine ⟨hmem, P, hP, ?_⟩
      intro d hd hdA
      rw [List.any_eq_true] at hPa
      push_neg at hPa
      have := hPa d (List.mem_filter.mpr ⟨hd, hdA⟩)
      simpa using this
    · rintro ⟨hmem, P, hP, hPa⟩
      refine ⟨hmem, P, hP, ?_⟩
      rw [List.any_eq_true]
      push_neg
      intro d hd
      rw [List.mem_filter] at hd
      simpa using hPa d hd.1 hd.2
  · intro l
    rw [main_guard]
    split
    · next h =>
      constructor
      · intro hc
        exact absurd hc (by simp)
      · rintro ⟨rfl, hne⟩
        exact absurd h hne
    · next h =>
      constructor
      · intro hc
        injection hc with hc'
        exact ⟨hc'.symm, by rw [← hc']; exact h⟩
      · rintro ⟨rfl, _⟩
        rfl
  · rw [main_guard]
    split
    · next h => simpa using h
    · next h =>
      constructor
      · intro hc
        exact absurd hc (by simp)
      · intro hc
        exact absurd hc h

/-- Witness for C8 (amended) at a concrete input. -/
theorem c8_witness :
    ("X" ∈ ["X"] ∧ ∃ P ∈ ["P", "Q"], ∀ d ∈ ["X_i_P"],
      strContains d "X" = true → strContains d P = false) ∧
    main_guard ["X_i_P"] ["P", "Q"] ["X"] =
      .error (failing_algorithms ["X_i_P"] ["P", "Q"] ["X"]) := by
  constructor
  · exact ((c8_amended_guard ["X_i_P"] ["P", "Q"] ["X"]).1 "X").mp (by decide)
  · exact ((c8_amended_guard ["X_i_P"] ["P", "Q"] ["X"]).2.1
      (failing_algorithms ["X_i_P"] ["P", "Q"] ["X"])).mpr ⟨rfl, by decide⟩

/-- C9 is false as stated: `make_edges` keeps the endpoint order of each
row — a table with the single row (A, B) and a table with the single row
(B, A) yield different edge sets, and the pair ("A", "B") belongs to the
first but not the second. -/
theorem c9_counterexample :
    make_edges [(("A" : String), ("B" : String))] ≠
      make_edges [(("B" : String), ("A" : String))] ∧
    (("A", "B") : E2) ∈ make_edges [(("A" : String), ("B" : String))] ∧
    (("A", "B") : E2) ∉ make_edges [(("B" : String), ("A" : String))] := by
  refine ⟨?_, ?_, ?_⟩ <;> decide

/-- C9 (amended): `make_edges` returns the set of row tuples as ordered
pairs: it is invariant under row reordering and duplicate rows, but the
two endpoints of a row are not interchangeable. -/
theorem c9_amended_edges {α : Type} [DecidableEq α] :
    (∀ l1 l2 : List α, l1.Perm l2 → make_edges l1 = make_edges l2) ∧
    (∀ (l : List α) (x : α), make_edges (x :: x :: l) = make_edges (x :: l)) := by
  constructor
  · intro l1 l2 h
    exact List.toFinset_eq_of_perm l1 l2 h
  · intro l x
    simp [make_edges, List.toFinset_cons]

/-- Witness for C9 (amended) at a concrete input. -/
theorem c9_witness :
    (([(("A" : String), ("B" : String)), ("C", "D")] : List E2).Perm
      [("C", "D"), ("A", "B")]) ∧
    make_edges [(("A" : String), ("B" : String)), ("C", "D")] =
      make_edges [("C", "D"), ("A", "B")] :=
  ⟨by decide, c9_amended_edges.1 _ _ (by decide)⟩
